import Mathlib

/-!
Verification of the FiPy finite-volume PDE solver framework against its
specification.  The repository ships the example script
`examples/elphf/diffusion/input1D.py` and the viewer
`fipy/viewers/mayaviViewer/mayaviViewer.py`; the solver core (field store,
term assembler, equation sweep, iterator) is described by the specification
and modelled here from its words.  All numeric state is modelled with exact
rational arithmetic (`ℚ`); machine floating point is abstracted away, so
"to floating-point tolerance" statements become exact rational statements.

The executable rational operations below (`qadd`, `qsub`, `qmul`, `qdiv`)
are kernel-reducible re-statements of the standard `ℚ` operations (the
library's own `Rat.add` etc. are `@[irreducible]`, which blocks `decide`);
the bridge theorems `qadd_eq`, `qsub_eq`, `qmul_eq`, `qdiv_eq` prove they
agree with `+`, `-`, `*`, `/` on `ℚ`.
-/

namespace FiPy

/-- Exact rational addition, stated through `mkRat` so that it reduces. -/
def qadd (a b : ℚ) : ℚ := mkRat (a.num * b.den + b.num * a.den) (a.den * b.den)

/-- Exact rational subtraction, stated through `mkRat` so that it reduces. -/
def qsub (a b : ℚ) : ℚ := mkRat (a.num * b.den - b.num * a.den) (a.den * b.den)

/-- Exact rational multiplication, stated through `mkRat` so that it reduces. -/
def qmul (a b : ℚ) : ℚ := mkRat (a.num * b.num) (a.den * b.den)

/-- Exact rational division, stated through `Rat.divInt` so that it reduces. -/
def qdiv (a b : ℚ) : ℚ := Rat.divInt (a.num * b.den) (a.den * b.num)

/-- Modelled from the spec: the number of interior faces of cell `i` in a 1D
chain of `n` cells (the missing mesh-topology provider of §2: each interior
cell has two neighbours, a boundary cell one, a lone cell none). -/
def deg (n i : ℕ) : ℚ :=
  if 0 < i then (if i + 1 < n then 2 else 1) else (if i + 1 < n then 1 else 0)

/-- Forward-elimination pass of the Thomas (tridiagonal) solve used as the
linear-solver adapter of spec §4.4: `rows` carries `(diagonal, rhs)` per
cell, `off` the constant off-diagonal coefficient; returns the eliminated
`(c0, d0)` coefficients. -/
def thomasFwd (off : ℚ) : List (ℚ × ℚ) → ℚ → ℚ → List (ℚ × ℚ)
  | [], _, _ => []
  | (b, d) :: rest, cpPrev, dpPrev =>
    let m := qsub b (qmul off cpPrev)
    let cp := qdiv off m
    let dp := qdiv (qsub d (qmul off dpPrev)) m
    (cp, dp) :: thomasFwd off rest cp dp

/-- Back-substitution pass of the Thomas solve: consumes the eliminated
`(c0, d0)` rows front to back, producing the solution vector. -/
def backSub : List (ℚ × ℚ) → List ℚ
  | [] => []
  | (cp, dp) :: rest =>
    match backSub rest with
    | [] => [dp]
    | x :: xs => (qsub dp (qmul cp x)) :: x :: xs

/-- Modelled from the spec: one implicit time step of the pure-diffusion
equation of §4.2-§4.3 on a uniform 1D mesh with unit cell volume, unit face
conductance and time-step duration `τ`: the transient term contributes
`cell_volume / dt × (new - old)` and the diffusion term the face fluxes, so
each cell satisfies `(1 + τ·deg i)·vᵢ - τ·(neighbours) = uᵢ`; the assembled
tridiagonal system is solved exactly by the Thomas algorithm (the linear
solver adapter returns the exact solution of the assembled system). -/
def diffusionStep (τ : ℚ) (u : List ℚ) : List ℚ :=
  let n := u.length
  let rows := ((List.range n).zip u).map (fun p => (qadd 1 (qmul τ (deg n p.1)), p.2))
  backSub (thomasFwd (-τ) rows 0 0)

/-- Modelled from the spec: `k` calls of `Iterator.timestep(dt = τ)`, each
advancing the diffusion fields by one implicit time step. -/
def iterDiffusion (τ : ℚ) : ℕ → List ℚ → List ℚ
  | 0, u => u
  | k + 1, u => iterDiffusion τ k (diffusionStep τ u)

/-- The `allclose` check of `input1D.py` lines 150-153: every cell value `x`
satisfies `|x - target| ≤ atol + rtol·|target|` (NumPy `allclose` against a
scalar). -/
def allcloseQ (target rtol atol : ℚ) (u : List ℚ) : Bool :=
  u.all (fun x => decide (|qsub x target| ≤ qadd atol (qmul rtol |target|)))

/-- Modelled from the spec (§3 Field, §4.1 Field Store): a cell-centred
field holding one rational value per cell together with the lazily cached
derived quantities (gradient and face interpolation) that a mutation must
invalidate.  The solver core holding this class is not under `src/`; only
its caller `input1D.py` is. -/
structure CellField where
  values : ℕ → ℚ
  gradCache : Option (ℕ → ℚ)
  faceCache : Option (ℕ → ℚ)

/-- Modelled from the spec (§4.1): `set_value(field, value, subset_of_cells)`
mutates the listed cells if a subset is given, else all cells, and
invalidates every cached derived quantity. -/
def setValue (f : CellField) (v : ℚ) (subset : Option (List ℕ)) : CellField :=
  { values := fun i =>
      match subset with
      | some cells => if i ∈ cells then v else f.values i
      | none => v
    gradCache := none
    faceCache := none }

/-- The centre abscissa of cell `i` of the `Grid2D(dx = 1, dy = 1, nx = 40,
ny = 1)` mesh of `input1D.py`: `x = i + 1/2`. -/
def cellCenter (i : ℕ) : ℚ := qadd (i : ℚ) (mkRat 1 2)

/-- `input1D.py` line 115: the cells whose centre satisfies `x > L/2` with
`L = nx·dx = 40`. -/
def setCells : List ℕ :=
  (List.range 40).filter (fun i => decide ((20 : ℚ) < cellCenter i))

/-- A fresh field before the example initialises it (the initial value is
irrelevant: both `setValue` calls of `input1D.py` overwrite every cell). -/
def blankField : CellField := ⟨fun _ => 0, none, none⟩

/-- `input1D.py` lines 116-117: substitutional species 0 is set to `0.3`
everywhere and then to `0.6` on `setCells`. -/
def fieldA : CellField := setValue (setValue blankField (mkRat 3 10) none) (mkRat 6 10) (some setCells)

/-- `input1D.py` lines 118-119: substitutional species 1 is set to `0.6`
everywhere and then to `0.3` on `setCells`. -/
def fieldB : CellField := setValue (setValue blankField (mkRat 6 10) none) (mkRat 3 10) (some setCells)

/-- The per-cell value list of species 0 after initialisation. -/
def initA : List ℚ := (List.range 40).map fieldA.values

/-- The per-cell value list of species 1 after initialisation. -/
def initB : List ℚ := (List.range 40).map fieldB.values

/-- The cell volume `dx·dy = 1` of the `input1D.py` mesh. -/
def cellVolume : ℚ := 1

/-- The volume-weighted average of a list of cell values with the uniform
cell volume of the example: `(Σ uᵢ·V) / (Σ V)`, computed exactly. -/
def listWeightedAvg (u : List ℚ) : ℚ :=
  qdiv ((u.map (fun x => qmul x cellVolume)).foldr qadd 0)
    (((List.replicate u.length cellVolume).foldr qadd 0))

/-- Modelled from the spec (§4.2 diffusion term): the net diffusive flux
into cell `i` of a 1D chain of `n` cells with no-flux boundaries, per unit
face conductance: the sum of `(neighbour value - own value)` over the
interior faces of `i`. -/
def nbrFlux (n : ℕ) (v : ℕ → ℚ) (i : ℕ) : ℚ :=
  (if i + 1 < n then v (i + 1) - v i else 0) + (if 0 < i then v (i - 1) - v i else 0)

/-- Modelled from the spec (§4.2-§4.3): the assembled linear system of one
implicit time step of a pure diffusion equation with no sources and no-flux
boundaries on a 1D mesh of `n` uniform cells of volume `V`, face conductance
`c = D·A/d` and time-step duration `τ`, relating old values `u` to new
values `v`: for every cell, `V/τ·(vᵢ - uᵢ) = c·(flux into i)`.  `v` is what
the linear solver adapter returns for old state `u`. -/
def SolvesDiffusionStep (τ V c : ℚ) (n : ℕ) (u v : ℕ → ℚ) : Prop :=
  ∀ i < n, V / τ * (v i - u i) = c * nbrFlux n v i

/-- The volume-weighted average of the first `n` cell values of `u`, each
cell having the uniform volume `V`. -/
def weightedAvgFn (V : ℚ) (n : ℕ) (u : ℕ → ℚ) : ℚ :=
  (∑ i ∈ Finset.range n, V * u i) / (n * V)

/-- Modelled from the spec (§4.2): the contribution of one interior face
`f = (a, b, c)` (owning cells `a`, `b`, conductance `c = D·A/d`) to the
discretised diffusion operator at cell `i`: the face flux `c·(v b - v a)` is
added to cell `a` and subtracted from cell `b` (opposite signs on the two
owners). -/
def faceContrib (f : ℕ × ℕ × ℚ) (v : ℕ → ℚ) (i : ℕ) : ℚ :=
  if i = f.1 then f.2.2 * (v f.2.1 - v f.1)
  else if i = f.2.1 then -(f.2.2 * (v f.2.1 - v f.1)) else 0

/-- Modelled from the spec (§4.2): the assembled net flux into cell `i`,
the sum of the contributions of every interior face of the mesh. -/
def netFlux (faces : List (ℕ × ℕ × ℚ)) (v : ℕ → ℚ) (i : ℕ) : ℚ :=
  (faces.map (fun f => faceContrib f v i)).sum

/-- A list of interior faces is valid for a mesh of `n` cells when every
face joins two distinct cells of the mesh (spec §3: an interior face has
two distinct owning cells). -/
def FacesValid (n : ℕ) (faces : List (ℕ × ℕ × ℚ)) : Prop :=
  ∀ f ∈ faces, f.1 < n ∧ f.2.1 < n ∧ f.1 ≠ f.2.1

/-- Modelled from the spec (§4.2-§4.3): the linear system of one sweep of an
equation containing only a diffusion term with no boundary flux, on an
arbitrary mesh given by its interior face list and per-cell volumes: for
every cell, `volᵢ/τ·(vᵢ - uᵢ) = net flux into i`. -/
def DiffusionOnlySweep (faces : List (ℕ × ℕ × ℚ)) (vol : ℕ → ℚ) (τ : ℚ) (n : ℕ)
    (u v : ℕ → ℚ) : Prop :=
  ∀ i < n, vol i / τ * (v i - u i) = netFlux faces v i

/-- Modelled from the spec (§4.3): the under-relaxed update of one sweep,
`new = old + underrelaxation·(solved - old)`, applied cell-wise. -/
def sweepUpdate (relax : ℚ) (old solved : ℕ → ℚ) : ℕ → ℚ :=
  fun i => old i + relax * (solved i - old i)

/-- The maximum of `|w i|` over the first `n` cells (the scalar residual a
sweep returns, here the max-norm of the update `|new - old|` offered by
spec §4.3). -/
def maxAbsList (n : ℕ) (w : ℕ → ℚ) : ℚ :=
  ((List.range n).map (fun i => |w i|)).foldr max 0

/-- Modelled from the spec (§4.3 `Equation.sweep`): the multi-field state is
`fields : ℕ → ℕ → ℚ` (field index to per-cell values); `assembleSolve`
abstracts assembling the linear system from the *current* field values and
calling the linear solver adapter, returning the solved values of the owned
field.  The sweep writes the under-relaxed update back into the owned field
only and returns the scalar residual. -/
def equationSweep (owned : ℕ) (assembleSolve : (ℕ → ℕ → ℚ) → ℕ → ℚ) (relax : ℚ)
    (n : ℕ) (s : ℕ → ℕ → ℚ) : (ℕ → ℕ → ℚ) × ℚ :=
  let sol := assembleSolve s
  let newF := sweepUpdate relax (s owned) sol
  (fun f => if f = owned then newF else s f,
    maxAbsList n (fun i => newF i - s owned i))

/-- Modelled from the spec (§4.3 coupled loop): the outcome of one time
step's sweep loop: converged with the final state, the last residuals and
the number of loop iterations used, or non-convergence reported after the
maximum sweep count. -/
inductive SweepOutcome (σ : Type) : Type where
  | converged (s : σ) (residuals : List ℚ) (sweeps : ℕ)
  | nonConverged (s : σ) (residuals : List ℚ) (sweeps : ℕ)

/-- Modelled from the spec (§4.3): one iteration of the coupled loop calls
`sweep` once on each equation in the fixed declared order, threading the
state and collecting every residual. -/
def sweepAllEqns {σ : Type} : List (σ → σ × ℚ) → σ → σ × List ℚ
  | [], s => (s, [])
  | e :: es, s =>
    let r := e s
    let rest := sweepAllEqns es r.1
    (rest.1, r.2 :: rest.2)

/-- Every equation's residual is below its configured tolerance (the
residual and tolerance lists are read position-wise). -/
def allBelowTol (rs tols : List ℚ) : Bool :=
  rs.length == tols.length && (rs.zip tols).all (fun p => decide (p.1 < p.2))

/-- Modelled from the spec (§4.3 coupled loop): repeat sweeps of all
equations until every residual is below its tolerance or the remaining
sweep budget `fuel` is exhausted, counting iterations in `done`; on
exhaustion non-convergence is reported (no retry, no other exit). -/
def iterLoop {σ : Type} (eqs : List (σ → σ × ℚ)) (tols : List ℚ) :
    ℕ → ℕ → σ → SweepOutcome σ
  | 0, done, s => .nonConverged s [] done
  | fuel + 1, done, s =>
    let r := sweepAllEqns eqs s
    if allBelowTol r.2 tols then .converged r.1 r.2 (done + 1)
    else iterLoop eqs tols fuel (done + 1) r.1

/-- Modelled from the spec (§4.4, §7): the iterator-visible solver state:
the current simulation time, the field state, and how many times the linear
solver backend has been invoked. -/
structure SolverState (σ : Type) : Type where
  time : ℚ
  fields : σ
  solverCalls : ℕ

/-- Modelled from the spec (§4.4): one sweep against a fallible linear
solver backend (`none` = the backend signals `Unsolvable`).  The backend is
called exactly once — the core does not retry internally — and failure is
returned as `none` (a non-convergence signal) with the field state left
unchanged. -/
def sweepWithBackend {σ : Type} (backend : σ → Option (ℕ → ℚ))
    (applySol : σ → (ℕ → ℚ) → σ) (resid : (ℕ → ℚ) → ℚ)
    (st : SolverState σ) : SolverState σ × Option ℚ :=
  match backend st.fields with
  | none => ({ st with solverCalls := st.solverCalls + 1 }, none)
  | some sol =>
    ({ st with fields := applySol st.fields sol, solverCalls := st.solverCalls + 1 },
      some (resid sol))

/-- Modelled from the spec (§7 `Unsolvable`): a time-step attempt records a
failed sweep as non-convergence (`false`) and does not advance the time;
only a successful sweep advances `time` by `dt`. -/
def timestepWithBackend {σ : Type} (backend : σ → Option (ℕ → ℚ))
    (applySol : σ → (ℕ → ℚ) → σ) (resid : (ℕ → ℚ) → ℚ) (dt : ℚ)
    (st : SolverState σ) : SolverState σ × Bool :=
  let r := sweepWithBackend backend applySol resid st
  match r.2 with
  | none => (r.1, false)
  | some _ => ({ r.1 with time := r.1.time + dt }, true)

/-- Which of the two sub-viewers `MayaviViewer.__init__` managed to build
(`mayaviViewer.py` lines 81-93): `VTKCellViewer` and/or `VTKFaceViewer`
may be `None`. -/
structure SubViewers : Type where
  hasCellViewer : Bool
  hasFaceViewer : Bool

/-- The externally visible effects of one `MayaviViewer.plot` call
(`mayaviViewer.py` lines 154-169): how many times each VTK file was
written, the contents written to the lock file (one entry per creation;
`none` = created empty because `filename` was `None`), and whether
"viewer: NOT READY" was printed. -/
structure PlotEffects (α : Type) : Type where
  cellFileWrites : ℕ
  faceFileWrites : ℕ
  lockFileWrites : List (Option α)
  printedNotReady : Bool

/-- `MayaviViewer.plot` (`mayaviViewer.py` lines 154-169) with real time
abstracted to the finite sequence `polls` of lock-file observations made
inside the 10-second window: each loop iteration checks `os.path.isfile`
on the lock; while the lock exists it polls again; at the first absent
poll it writes the cell VTK file (if the cell sub-viewer is not `None`),
the face VTK file (if the face sub-viewer is not `None`), creates the lock
file once — writing `filename` into it when given — and stops; if the lock
existed at every poll of the window it writes nothing and prints
"viewer: NOT READY", returning normally either way. -/
def mayaviPlot {α : Type} (cfg : SubViewers) (filename : Option α) :
    List Bool → PlotEffects α
  | [] => ⟨0, 0, [], true⟩
  | lockExists :: later =>
    if lockExists then mayaviPlot cfg filename later
    else
      ⟨if cfg.hasCellViewer then 1 else 0, if cfg.hasFaceViewer then 1 else 0,
        [filename], false⟩

/-- The sum of the first `n` cell values. -/
def cellSum (n : ℕ) (u : ℕ → ℚ) : ℚ := ∑ i ∈ Finset.range n, u i

/-- The squared `ℓ²` norm of the first `n` cell values. -/
def norm2 (n : ℕ) (w : ℕ → ℚ) : ℚ := ∑ i ∈ Finset.range n, w i ^ 2

/-- The Dirichlet energy of a 1D cell field: the sum over the `n - 1`
interior faces of the squared value difference across the face. -/
def dirichlet (n : ℕ) (w : ℕ → ℚ) : ℚ :=
  ∑ f ∈ Finset.range (n - 1), (w (f + 1) - w f) ^ 2

/-- The total variation of a 1D cell field: the sum over the interior faces
of the absolute value difference across the face. -/
def totalVar (n : ℕ) (w : ℕ → ℚ) : ℚ :=
  ∑ f ∈ Finset.range (n - 1), |w (f + 1) - w f|

/-! ### Bridge theorems: the executable rational operations are the `ℚ` operations -/

theorem qadd_eq (a b : ℚ) : qadd a b = a + b := (Rat.add_def' a b).symm

theorem qsub_eq (a b : ℚ) : qsub a b = a - b := (Rat.sub_def' a b).symm

theorem qmul_eq (a b : ℚ) : qmul a b = a * b := by
  rw [Rat.mul_def, Rat.normalize_eq_mkRat]; rfl

theorem qdiv_eq (a b : ℚ) : qdiv a b = a / b := (Rat.div_def' a b).symm

/-! ### Helper lemmas -/

theorem sum_ite_succ_lt (n : ℕ) (f : ℕ → ℚ) :
    ∑ i ∈ Finset.range n, (if i + 1 < n then f i else 0)
      = ∑ i ∈ Finset.range (n - 1), f i := by
  cases n with
  | zero => simp
  | succ m =>
    rw [Finset.sum_range_succ, if_neg (lt_irrefl (m + 1)), add_zero, Nat.succ_sub_one]
    refine Finset.sum_congr rfl fun i hi => ?_
    exact if_pos (by have := Finset.mem_range.mp hi; omega)

theorem sum_ite_pos_pred (n : ℕ) (g : ℕ → ℚ) :
    ∑ i ∈ Finset.range n, (if 0 < i then g (i - 1) else 0)
      = ∑ i ∈ Finset.range (n - 1), g i := by
  cases n with
  | zero => simp
  | succ m => rw [Finset.sum_range_succ']; simp

theorem nbrFlux_sum (n : ℕ) (v : ℕ → ℚ) :
    ∑ i ∈ Finset.range n, nbrFlux n v i = 0 := by
  unfold nbrFlux
  rw [Finset.sum_add_distrib, sum_ite_succ_lt n (fun i => v (i + 1) - v i)]
  have hsecond : ∑ i ∈ Finset.range n, (if 0 < i then v (i - 1) - v i else 0)
      = ∑ i ∈ Finset.range n, (if 0 < i then (fun j => v j - v (j + 1)) (i - 1) else 0) := by
    refine Finset.sum_congr rfl fun i _ => ?_
    by_cases hi : 0 < i
    · rw [if_pos hi, if_pos hi]
      have : i - 1 + 1 = i := by omega
      simp only [this]
    · rw [if_neg hi, if_neg hi]
  rw [hsecond, sum_ite_pos_pred n (fun j => v j - v (j + 1)), ← Finset.sum_add_distrib]
  exact Finset.sum_eq_zero fun i _ => by ring

theorem stepConserves (τ V c : ℚ) (n : ℕ) (u v : ℕ → ℚ) (hτ : τ ≠ 0)
    (h : SolvesDiffusionStep τ V c n u v) :
    ∑ i ∈ Finset.range n, V * v i = ∑ i ∈ Finset.range n, V * u i := by
  rw [← sub_eq_zero, ← Finset.sum_sub_distrib]
  have hcell : ∀ i ∈ Finset.range n, V * v i - V * u i = τ * c * nbrFlux n v i := by
    intro i hi
    have hh := h i (Finset.mem_range.mp hi)
    rw [div_mul_eq_mul_div, div_eq_iff hτ] at hh
    linear_combination hh
  rw [Finset.sum_congr rfl hcell, ← Finset.mul_sum, nbrFlux_sum, mul_zero]

theorem steadyConstant (τ V c : ℚ) (n : ℕ) (u : ℕ → ℚ) (hc : c ≠ 0)
    (h : SolvesDiffusionStep τ V c n u u) : ∀ i < n, u i = u 0 := by
  have hflux : ∀ i < n, nbrFlux n u i = 0 := by
    intro i hi
    have hh := h i hi
    rw [sub_self, mul_zero] at hh
    exact (mul_eq_zero.mp hh.symm).resolve_left hc
  have hstep : ∀ i, i + 1 < n → u (i + 1) = u i := by
    intro i
    induction i with
    | zero =>
      intro h1
      have h0 := hflux 0 (by omega)
      rw [nbrFlux, if_pos h1, if_neg (by omega), add_zero, sub_eq_zero] at h0
      exact h0
    | succ j ihj =>
      intro hj2
      have hj1 : j + 1 < n := by omega
      have huj := ihj hj1
      have hmid := hflux (j + 1) (by omega)
      rw [nbrFlux, if_pos hj2, if_pos (Nat.succ_pos j)] at hmid
      have hidx : j + 1 - 1 = j := by omega
      rw [hidx] at hmid
      have : u (j + 1 + 1) - u (j + 1) = 0 := by
        rw [huj] at hmid ⊢
        linarith
      linarith
  intro i
  induction i with
  | zero => intro _; rfl
  | succ j ihj => intro hj; rw [hstep j hj, ihj (by omega)]

theorem sum_faceContrib {n : ℕ} (f : ℕ × ℕ × ℚ) (v : ℕ → ℚ)
    (h1 : f.1 < n) (h2 : f.2.1 < n) (hne : f.1 ≠ f.2.1) :
    ∑ i ∈ Finset.range n, faceContrib f v i = 0 := by
  have hsplit : ∀ i, faceContrib f v i
      = (if i = f.1 then f.2.2 * (v f.2.1 - v f.1) else 0)
        + (if i = f.2.1 then -(f.2.2 * (v f.2.1 - v f.1)) else 0) := by
    intro i
    rcases eq_or_ne i f.1 with hA | hA
    · subst hA; simp [faceContrib, hne]
    · rcases eq_or_ne i f.2.1 with hB | hB
      · subst hB; simp [faceContrib, hA]
      · simp [faceContrib, hA, hB]
  rw [Finset.sum_congr rfl fun i _ => hsplit i, Finset.sum_add_distrib]
  rw [Finset.sum_ite_eq' (Finset.range n) f.1 (fun _ => f.2.2 * (v f.2.1 - v f.1)),
    Finset.sum_ite_eq' (Finset.range n) f.2.1 (fun _ => -(f.2.2 * (v f.2.1 - v f.1)))]
  rw [if_pos (Finset.mem_range.mpr h1), if_pos (Finset.mem_range.mpr h2)]
  ring

theorem netFlux_total {n : ℕ} (v : ℕ → ℚ) :
    ∀ (faces : List (ℕ × ℕ × ℚ)), FacesValid n faces →
      ∑ i ∈ Finset.range n, netFlux faces v i = 0
  | [], _ => by simp [netFlux]
  | f :: fs, hv => by
    have hf := hv f (List.mem_cons_self f fs)
    have hfs : FacesValid n fs := fun g hg => hv g (List.mem_cons_of_mem f hg)
    have hsplit : ∀ i, netFlux (f :: fs) v i = faceContrib f v i + netFlux fs v i :=
      fun i => by simp [netFlux]
    rw [Finset.sum_congr rfl fun i _ => hsplit i, Finset.sum_add_distrib,
      sum_faceContrib f v hf.1 hf.2.1 hf.2.2, netFlux_total v fs hfs, add_zero]

theorem le_foldr_max (l : List ℚ) (x : ℚ) (hx : x ∈ l) : x ≤ l.foldr max 0 := by
  induction l with
  | nil => cases hx
  | cons a t ih =>
    rcases List.mem_cons.mp hx with h | h
    · rw [h, List.foldr_cons]; exact le_max_left a (t.foldr max 0)
    · exact le_trans (ih h) (le_max_right a (t.foldr max 0))

theorem abs_le_maxAbsList (n : ℕ) (w : ℕ → ℚ) (i : ℕ) (hi : i < n) :
    |w i| ≤ maxAbsList n w :=
  le_foldr_max _ _ (List.mem_map.mpr ⟨i, List.mem_range.mpr hi, rfl⟩)

theorem iterLoop_exit {σ : Type} (eqs : List (σ → σ × ℚ)) (tols : List ℚ) :
    ∀ (fuel done : ℕ) (s : σ),
      (∃ s2 rs k, iterLoop eqs tols fuel done s = .converged s2 rs k ∧
        allBelowTol rs tols = true ∧ k ≤ done + fuel) ∨
      (∃ s2 rs, iterLoop eqs tols fuel done s = .nonConverged s2 rs (done + fuel)) := by
  intro fuel
  induction fuel with
  | zero => intro done s; right; exact ⟨s, [], by simp [iterLoop]⟩
  | succ fuel ih =>
    intro done s
    by_cases h : allBelowTol (sweepAllEqns eqs s).2 tols = true
    · left
      refine ⟨(sweepAllEqns eqs s).1, (sweepAllEqns eqs s).2, done + 1, ?_, h, by omega⟩
      simp [iterLoop, h]
    · have heq : iterLoop eqs tols (fuel + 1) done s
          = iterLoop eqs tols fuel (done + 1) (sweepAllEqns eqs s).1 := by
        simp [iterLoop, h]
      rcases ih (done + 1) (sweepAllEqns eqs s).1 with ⟨s2, rs, k, he, hb, hk⟩ | ⟨s2, rs, he⟩
      · left; exact ⟨s2, rs, k, heq.trans he, hb, by omega⟩
      · right
        refine ⟨s2, rs, ?_⟩
        rw [heq, he]
        have : done + 1 + fuel = done + (fuel + 1) := by omega
        rw [this]

theorem nbrFlux_shift (n : ℕ) (v : ℕ → ℚ) (m : ℚ) (i : ℕ) :
    nbrFlux n (fun j => v j - m) i = nbrFlux n v i := by
  unfold nbrFlux
  split_ifs <;> ring

theorem solves_shift {τ V c : ℚ} {n : ℕ} {u v : ℕ → ℚ} (m : ℚ)
    (h : SolvesDiffusionStep τ V c n u v) :
    SolvesDiffusionStep τ V c n (fun i => u i - m) (fun i => v i - m) := by
  intro i hi
  have hh := h i hi
  rw [nbrFlux_shift]
  calc V / τ * ((v i - m) - (u i - m)) = V / τ * (v i - u i) := by ring
    _ = c * nbrFlux n v i := hh

theorem sum_conserve {τ V c : ℚ} {n : ℕ} {u v : ℕ → ℚ} (hτ : τ ≠ 0) (hV : V ≠ 0)
    (h : SolvesDiffusionStep τ V c n u v) : cellSum n v = cellSum n u := by
  have hs := stepConserves τ V c n u v hτ h
  rw [← Finset.mul_sum, ← Finset.mul_sum] at hs
  exact mul_left_cancel₀ hV hs

theorem flux_inner (n : ℕ) (v : ℕ → ℚ) :
    ∑ i ∈ Finset.range n, v i * nbrFlux n v i = -dirichlet n v := by
  have hsplit : ∀ i, v i * nbrFlux n v i
      = (if i + 1 < n then v i * (v (i + 1) - v i) else 0)
        + (if 0 < i then v i * (v (i - 1) - v i) else 0) := by
    intro i
    unfold nbrFlux
    split_ifs <;> ring
  rw [Finset.sum_congr rfl fun i _ => hsplit i, Finset.sum_add_distrib,
    sum_ite_succ_lt n (fun i => v i * (v (i + 1) - v i))]
  have hsecond : ∑ i ∈ Finset.range n, (if 0 < i then v i * (v (i - 1) - v i) else 0)
      = ∑ i ∈ Finset.range n,
          (if 0 < i then (fun j => v (j + 1) * (v j - v (j + 1))) (i - 1) else 0) := by
    refine Finset.sum_congr rfl fun i _ => ?_
    by_cases hi : 0 < i
    · rw [if_pos hi, if_pos hi]
      have hidx : i - 1 + 1 = i := by omega
      simp only [hidx]
    · rw [if_neg hi, if_neg hi]
  rw [hsecond, sum_ite_pos_pred n (fun j => v (j + 1) * (v j - v (j + 1))),
    ← Finset.sum_add_distrib]
  unfold dirichlet
  rw [← Finset.sum_neg_distrib]
  exact Finset.sum_congr rfl fun f _ => by ring

theorem step_energy {τ V c : ℚ} {n : ℕ} {u v : ℕ → ℚ} (hτ : τ ≠ 0)
    (h : SolvesDiffusionStep τ V c n u v) :
    V * norm2 n v + τ * c * dirichlet n v
      = V * ∑ i ∈ Finset.range n, u i * v i := by
  have hcell : ∀ i ∈ Finset.range n, V * (v i * v i) - V * (u i * v i)
      = τ * c * (v i * nbrFlux n v i) := by
    intro i hi
    have hh := h i (Finset.mem_range.mp hi)
    rw [div_mul_eq_mul_div, div_eq_iff hτ] at hh
    linear_combination v i * hh
  have hsum : ∑ i ∈ Finset.range n, (V * (v i * v i) - V * (u i * v i))
      = τ * c * ∑ i ∈ Finset.range n, v i * nbrFlux n v i := by
    rw [Finset.sum_congr rfl hcell, ← Finset.mul_sum]
  rw [flux_inner] at hsum
  rw [Finset.sum_sub_distrib, ← Finset.mul_sum, ← Finset.mul_sum] at hsum
  have hnorm : norm2 n v = ∑ i ∈ Finset.range n, v i * v i := by
    unfold norm2
    exact Finset.sum_congr rfl fun i _ => pow_two (v i)
  rw [hnorm]
  linarith [hsum]

theorem telescope_abs (n : ℕ) (w : ℕ → ℚ) :
    ∀ b, b < n → ∀ a, a ≤ b → |w b - w a| ≤ totalVar n w := by
  have key : ∀ a b, a ≤ b → |w b - w a| ≤ ∑ f ∈ Finset.Ico a b, |w (f + 1) - w f| := by
    intro a b hab
    induction b, hab using Nat.le_induction with
    | base => simp
    | succ b hab ih =>
      have h1 : |w (b + 1) - w a| ≤ |w b - w a| + |w (b + 1) - w b| := by
        rw [show w (b + 1) - w a = (w b - w a) + (w (b + 1) - w b) by ring]
        exact abs_add _ _
      rw [Finset.sum_Ico_succ_top hab]
      linarith [ih]
  intro b hb a hab
  refine le_trans (key a b hab) (Finset.sum_le_sum_of_subset_of_nonneg ?_ ?_)
  · intro f hf
    rw [Finset.mem_Ico] at hf
    rw [Finset.mem_range]
    omega
  · intro f _ _
    exact abs_nonneg _

theorem abs_le_totalVar (n : ℕ) (w : ℕ → ℚ) (hn : 0 < n)
    (hsum : cellSum n w = 0) : ∀ i < n, |w i| ≤ totalVar n w := by
  have hnonpos : ∃ j, j < n ∧ w j ≤ 0 := by
    by_contra hcon
    push_neg at hcon
    have hpos : 0 < cellSum n w := by
      refine Finset.sum_pos ?_ ⟨0, Finset.mem_range.mpr hn⟩
      intro i hi
      exact hcon i (Finset.mem_range.mp hi)
    rw [hsum] at hpos
    exact lt_irrefl 0 hpos
  have hnonneg : ∃ j, j < n ∧ 0 ≤ w j := by
    by_contra hcon
    push_neg at hcon
    have hneg : cellSum n w < 0 := by
      have hpos : 0 < ∑ i ∈ Finset.range n, (-(w i)) := by
        refine Finset.sum_pos ?_ ⟨0, Finset.mem_range.mpr hn⟩
        intro i hi
        have := hcon i (Finset.mem_range.mp hi)
        linarith
      rw [Finset.sum_neg_distrib] at hpos
      unfold cellSum
      linarith
    rw [hsum] at hneg
    exact lt_irrefl 0 hneg
  obtain ⟨j, hjn, hj⟩ := hnonpos
  obtain ⟨j2, hj2n, hj2⟩ := hnonneg
  intro i hi
  have hup : w i ≤ totalVar n w := by
    have hdiff : |w i - w j| ≤ totalVar n w := by
      rcases le_total j i with hji | hij
      · exact telescope_abs n w i hi j hji
      · rw [abs_sub_comm]
        exact telescope_abs n w j hjn i hij
    have hle : w i - w j ≤ |w i - w j| := le_abs_self _
    linarith
  have hlow : -(totalVar n w) ≤ w i := by
    have hdiff : |w j2 - w i| ≤ totalVar n w := by
      rcases le_total i j2 with hij | hji
      · exact telescope_abs n w j2 hj2n i hij
      · rw [abs_sub_comm]
        exact telescope_abs n w i hi j2 hji
    have hle : w j2 - w i ≤ |w j2 - w i| := le_abs_self _
    linarith
  exact abs_le.mpr ⟨hlow, hup⟩

theorem totalVar_sq_le (n : ℕ) (w : ℕ → ℚ) :
    totalVar n w ^ 2 ≤ ((n - 1 : ℕ) : ℚ) * dirichlet n w := by
  have hcs := Finset.sum_mul_sq_le_sq_mul_sq (Finset.range (n - 1))
    (fun _ => (1 : ℚ)) (fun f => |w (f + 1) - w f|)
  simp only [one_mul, one_pow] at hcs
  rw [Finset.sum_const, Finset.card_range, nsmul_eq_mul, mul_one] at hcs
  calc totalVar n w ^ 2
      ≤ ((n - 1 : ℕ) : ℚ) * ∑ f ∈ Finset.range (n - 1), |w (f + 1) - w f| ^ 2 := hcs
    _ = ((n - 1 : ℕ) : ℚ) * dirichlet n w := by
        unfold dirichlet
        congr 1
        exact Finset.sum_congr rfl fun f _ => sq_abs _

theorem poincare (n : ℕ) (w : ℕ → ℚ) (hn : 0 < n) (hsum : cellSum n w = 0) :
    norm2 n w ≤ (n : ℚ) * ((n - 1 : ℕ) : ℚ) * dirichlet n w := by
  have habs := abs_le_totalVar n w hn hsum
  have hterm : ∀ i ∈ Finset.range n, w i ^ 2 ≤ totalVar n w ^ 2 := by
    intro i hi
    have h1 := habs i (Finset.mem_range.mp hi)
    have h0 : (0 : ℚ) ≤ |w i| := abs_nonneg _
    calc w i ^ 2 = |w i| ^ 2 := (sq_abs _).symm
      _ ≤ totalVar n w ^ 2 := by nlinarith
  calc norm2 n w ≤ ∑ _i ∈ Finset.range n, totalVar n w ^ 2 := Finset.sum_le_sum hterm
    _ = (n : ℚ) * totalVar n w ^ 2 := by
        rw [Finset.sum_const, Finset.card_range, nsmul_eq_mul]
    _ ≤ (n : ℚ) * (((n - 1 : ℕ) : ℚ) * dirichlet n w) :=
        mul_le_mul_of_nonneg_left (totalVar_sq_le n w) (Nat.cast_nonneg n)
    _ = (n : ℚ) * ((n - 1 : ℕ) : ℚ) * dirichlet n w := by ring

theorem step_contraction {τ V c : ℚ} {n : ℕ} {w0 w1 : ℕ → ℚ}
    (hτ : 0 < τ) (hV : 0 < V) (hc : 0 < c) (hn : 0 < n)
    (hsum : cellSum n w1 = 0) (h : SolvesDiffusionStep τ V c n w0 w1) :
    norm2 n w1 * (V * ((n : ℚ) * ((n - 1 : ℕ) : ℚ)) + τ * c) ^ 2
      ≤ norm2 n w0 * (V * ((n : ℚ) * ((n - 1 : ℕ) : ℚ))) ^ 2 := by
  set C := (n : ℚ) * ((n - 1 : ℕ) : ℚ) with hCdef
  have hC0 : 0 ≤ C := by positivity
  set N0 := norm2 n w0 with hN0def
  set N1 := norm2 n w1 with hN1def
  set D := dirichlet n w1 with hDdef
  set X := ∑ i ∈ Finset.range n, w0 i * w1 i with hXdef
  have hN0nn : 0 ≤ N0 := Finset.sum_nonneg fun _ _ => sq_nonneg _
  have hN1nn : 0 ≤ N1 := Finset.sum_nonneg fun _ _ => sq_nonneg _
  have hDnn : 0 ≤ D := Finset.sum_nonneg fun _ _ => sq_nonneg _
  have hE : V * N1 + τ * c * D = V * X := step_energy (ne_of_gt hτ) h
  have hP : N1 ≤ C * D := by
    have := poincare n w1 hn hsum
    rw [← hN1def, ← hDdef] at this
    calc N1 ≤ (n : ℚ) * ((n - 1 : ℕ) : ℚ) * D := this
      _ = C * D := by rw [hCdef]
  have hCS : X ^ 2 ≤ N0 * N1 := by
    have := Finset.sum_mul_sq_le_sq_mul_sq (Finset.range n) w0 w1
    rw [← hXdef] at this
    calc X ^ 2 ≤ (∑ i ∈ Finset.range n, w0 i ^ 2) * ∑ i ∈ Finset.range n, w1 i ^ 2 := this
      _ = N0 * N1 := rfl
  -- V·C·X dominates N1·(V·C + τ·c)
  have hkey : N1 * (V * C + τ * c) ≤ V * C * X := by
    have h1 : τ * c * (C * D) ≥ τ * c * N1 :=
      mul_le_mul_of_nonneg_left hP (le_of_lt (mul_pos hτ hc))
    nlinarith [hE, hC0, hDnn]
  have hXnn : 0 ≤ V * C * X := by
    have h2 : 0 ≤ V * N1 + τ * c * D := by positivity
    nlinarith [hE, hC0]
  have hsq : (N1 * (V * C + τ * c)) ^ 2 ≤ (V * C * X) ^ 2 := by
    have hlnn : 0 ≤ N1 * (V * C + τ * c) := by positivity
    nlinarith [hkey, hlnn, hXnn]
  rcases eq_or_lt_of_le hN1nn with hN1z | hN1p
  · rw [← hN1z]
    nlinarith [sq_nonneg (V * C), hN0nn]
  · have hfinal : (N1 * (V * C + τ * c) ^ 2) * N1 ≤ (N0 * (V * C) ^ 2) * N1 := by
      nlinarith [hsq, hCS, sq_nonneg (V * C)]
    exact le_of_mul_le_mul_right hfinal hN1p

/-! ### The claims -/

/-- C2: for every 1D mesh of `n` uniform cells carrying a pure diffusion
equation with no sources and no-flux boundaries (positive cell volume,
conductance and time-step duration), and for *every* initial distribution
`u 0`, repeated time-stepping converges: from some sweep count `K` on,
every cell value stays within tolerance `1e-7` of the volume-weighted
average of the initial distribution.  Proved by an `ℓ²` contraction: one
implicit step divides the mean-zero energy by at least
`((V·n·(n-1) + τ·c) / (V·n·(n-1)))²` (summation by parts plus a discrete
Poincaré inequality), and the energy bounds every cell's deviation. -/
theorem steady_state_uniformity (n : ℕ) (τ V c : ℚ) (u : ℕ → ℕ → ℚ)
    (hn : 0 < n) (hτ : 0 < τ) (hV : 0 < V) (hc : 0 < c)
    (hsteps : ∀ k, SolvesDiffusionStep τ V c n (u k) (u (k + 1))) :
    ∃ K, ∀ k, K ≤ k → ∀ i < n, |u k i - weightedAvgFn V n (u 0)| ≤ 1 / 10 ^ 7 := by
  set m := cellSum n (u 0) / n with hm
  have hncast : (0 : ℚ) < (n : ℚ) := by exact_mod_cast hn
  have havg : weightedAvgFn V n (u 0) = m := by
    rw [weightedAvgFn, hm, cellSum, ← Finset.mul_sum]
    field_simp
    ring
  have hsums : ∀ k, cellSum n (u k) = cellSum n (u 0) := by
    intro k
    induction k with
    | zero => rfl
    | succ j ih => rw [sum_conserve (ne_of_gt hτ) (ne_of_gt hV) (hsteps j), ih]
  have hw0 : ∀ k, cellSum n (fun i => u k i - m) = 0 := by
    intro k
    unfold cellSum
    rw [Finset.sum_sub_distrib, Finset.sum_const, Finset.card_range, nsmul_eq_mul]
    have hone : ∑ i ∈ Finset.range n, u k i = cellSum n (u k) := rfl
    rw [hone, hsums k, hm]
    field_simp
  set C := V * ((n : ℚ) * ((n - 1 : ℕ) : ℚ)) with hC
  have hC0 : 0 ≤ C := by positivity
  have hden : 0 < (C + τ * c) ^ 2 := by positivity
  set ρ := C ^ 2 / (C + τ * c) ^ 2 with hρ
  have hρ0 : 0 ≤ ρ := by positivity
  have hρ1 : ρ < 1 := by
    rw [hρ, div_lt_one hden]
    have hlt : C < C + τ * c := by nlinarith [mul_pos hτ hc]
    exact pow_lt_pow_left₀ hlt hC0 two_ne_zero
  have hcontr : ∀ k, norm2 n (fun i => u (k + 1) i - m)
      ≤ ρ * norm2 n (fun i => u k i - m) := by
    intro k
    have hmul := step_contraction hτ hV hc hn (hw0 (k + 1)) (solves_shift m (hsteps k))
    rw [hρ, div_mul_eq_mul_div, le_div_iff₀ hden]
    calc norm2 n (fun i => u (k + 1) i - m) * (C + τ * c) ^ 2
        = norm2 n (fun i => u (k + 1) i - m) * (V * ((n : ℚ) * ((n - 1 : ℕ) : ℚ)) + τ * c) ^ 2 := by
          rw [← hC]
      _ ≤ norm2 n (fun i => u k i - m) * (V * ((n : ℚ) * ((n - 1 : ℕ) : ℚ))) ^ 2 := hmul
      _ = C ^ 2 * norm2 n (fun i => u k i - m) := by rw [← hC]; ring
  set N0 := norm2 n (fun i => u 0 i - m) with hN0
  have hN0nn : 0 ≤ N0 := Finset.sum_nonneg fun _ _ => sq_nonneg _
  have hiter : ∀ k, norm2 n (fun i => u k i - m) ≤ ρ ^ k * N0 := by
    intro k
    induction k with
    | zero => simp [hN0]
    | succ j ih =>
      calc norm2 n (fun i => u (j + 1) i - m)
          ≤ ρ * norm2 n (fun i => u j i - m) := hcontr j
        _ ≤ ρ * (ρ ^ j * N0) := mul_le_mul_of_nonneg_left ih hρ0
        _ = ρ ^ (j + 1) * N0 := by ring
  have htol : (0 : ℚ) < (1 / 10 ^ 7) ^ 2 / (N0 + 1) := by positivity
  obtain ⟨K, hK⟩ := exists_pow_lt_of_lt_one htol hρ1
  refine ⟨K, fun k hKk i hi => ?_⟩
  have h1 : ρ ^ k ≤ ρ ^ K := pow_le_pow_of_le_one hρ0 (le_of_lt hρ1) hKk
  have h2 : norm2 n (fun i => u k i - m) ≤ ρ ^ K * N0 :=
    le_trans (hiter k) (mul_le_mul_of_nonneg_right h1 hN0nn)
  have h3 : ρ ^ K * N0 < (1 / 10 ^ 7) ^ 2 := by
    have hN1 : (0 : ℚ) < N0 + 1 := by linarith
    rw [lt_div_iff₀ hN1] at hK
    nlinarith [pow_nonneg hρ0 K]
  have hterm : (u k i - m) ^ 2 ≤ norm2 n (fun i => u k i - m) := by
    have hone := Finset.single_le_sum
      (fun (j : ℕ) (_ : j ∈ Finset.range n) => sq_nonneg (u k j - m))
      (Finset.mem_range.mpr hi)
    simpa [norm2] using hone
  rw [havg]
  have hsq : (u k i - m) ^ 2 ≤ (1 / 10 ^ 7) ^ 2 := by linarith
  nlinarith [abs_nonneg (u k i - m), sq_abs (u k i - m)]

/-- Witness for C2: the genuinely non-uniform trajectory on two unit cells
starting at `(0, 1)` whose imbalance decays geometrically
(`u k = 1/2 ∓ (1/3)^k / 2`) satisfies every implicit diffusion step, and
from some `K` on every cell is within `1e-7` of the initial average `1/2`. -/
theorem steady_state_uniformity_witness :
    ∃ K, ∀ k, K ≤ k → ∀ i < 2,
      |(fun k i => 1 / 2 + (if i = 0 then (-1 : ℚ) else 1) * (1 / 3) ^ k / 2) k i
        - weightedAvgFn 1 2
            ((fun k i => 1 / 2 + (if i = 0 then (-1 : ℚ) else 1) * (1 / 3) ^ k / 2) 0)|
      ≤ 1 / 10 ^ 7 := by
  have hsteps : ∀ k, SolvesDiffusionStep 1 1 1 2
      ((fun k i => 1 / 2 + (if i = 0 then (-1 : ℚ) else 1) * (1 / 3) ^ k / 2) k)
      ((fun k i => 1 / 2 + (if i = 0 then (-1 : ℚ) else 1) * (1 / 3) ^ k / 2) (k + 1)) := by
    intro k i hi
    interval_cases i <;>
      · simp [nbrFlux, pow_succ]
        ring
  exact steady_state_uniformity 2 1 1 1
    (fun k i => 1 / 2 + (if i = 0 then (-1 : ℚ) else 1) * (1 / 3) ^ k / 2)
    (by norm_num) one_pos one_pos one_pos hsteps

/-- C3: for every mesh (given by its interior faces and cell volumes), a
sweep of an equation containing only a diffusion term with no boundary flux
satisfies `Σ (new - old)·volume = 0`, and the interior-face flux
contributions assembled by the diffusion term sum to exactly zero over the
whole mesh. -/
theorem diffusion_conservation (faces : List (ℕ × ℕ × ℚ)) (vol : ℕ → ℚ) (τ : ℚ)
    (n : ℕ) (u v : ℕ → ℚ) (hτ : τ ≠ 0) (hvalid : FacesValid n faces)
    (hsweep : DiffusionOnlySweep faces vol τ n u v) :
    (∑ i ∈ Finset.range n, (v i - u i) * vol i = 0) ∧
    (∑ i ∈ Finset.range n, netFlux faces v i = 0) := by
  have htotal := netFlux_total v faces hvalid
  refine ⟨?_, htotal⟩
  have hcell : ∀ i ∈ Finset.range n, (v i - u i) * vol i = τ * netFlux faces v i := by
    intro i hi
    have h := hsweep i (Finset.mem_range.mp hi)
    rw [div_mul_eq_mul_div, div_eq_iff hτ] at h
    linear_combination h
  rw [Finset.sum_congr rfl hcell, ← Finset.mul_sum, htotal, mul_zero]

/-- Witness for C3: a two-cell mesh joined by one unit face, `u = (0, 2)`,
solved to `v = (2/3, 4/3)` at `dt = 1`; both conservation sums vanish. -/
theorem diffusion_conservation_witness :
    (∑ i ∈ Finset.range 2,
        ((fun j => if j = 0 then (2 : ℚ) / 3 else 4 / 3) i
          - (fun j => if j = 0 then (0 : ℚ) else 2) i) * (fun _ : ℕ => (1 : ℚ)) i = 0) ∧
    (∑ i ∈ Finset.range 2,
        netFlux [(0, 1, (1 : ℚ))] (fun j => if j = 0 then (2 : ℚ) / 3 else 4 / 3) i = 0) := by
  have hvalid : FacesValid 2 [(0, 1, (1 : ℚ))] := by
    intro f hf
    rw [List.mem_singleton] at hf
    subst hf
    exact ⟨by norm_num, by norm_num, by norm_num⟩
  have hsweep : DiffusionOnlySweep [(0, 1, (1 : ℚ))] (fun _ => (1 : ℚ)) 1 2
      (fun j => if j = 0 then (0 : ℚ) else 2) (fun j => if j = 0 then (2 : ℚ) / 3 else 4 / 3) := by
    intro i hi
    interval_cases i <;> norm_num [netFlux, faceContrib]
  exact diffusion_conservation [(0, 1, (1 : ℚ))] (fun _ => (1 : ℚ)) 1 2
    (fun j => if j = 0 then (0 : ℚ) else 2) (fun j => if j = 0 then (2 : ℚ) / 3 else 4 / 3)
    one_ne_zero hvalid hsweep

/-- C4: `Equation.sweep` writes back into its owned field exactly
`old + underrelaxation·(solved - old)` where `solved` is the linear-solver
result assembled from the current field values, leaves every other field
unchanged, and returns the scalar residual (the max-norm of the update). -/
theorem equation_sweep_contract (owned : ℕ) (assembleSolve : (ℕ → ℕ → ℚ) → ℕ → ℚ)
    (relax : ℚ) (n : ℕ) (s : ℕ → ℕ → ℚ) :
    (∀ i, (equationSweep owned assembleSolve relax n s).1 owned i
        = s owned i + relax * (assembleSolve s i - s owned i)) ∧
    (∀ f, f ≠ owned → ∀ i, (equationSweep owned assembleSolve relax n s).1 f i = s f i) ∧
    ((equationSweep owned assembleSolve relax n s).2
        = maxAbsList n
            (fun i => (equationSweep owned assembleSolve relax n s).1 owned i - s owned i)) := by
  refine ⟨fun i => ?_, fun f hf i => ?_, ?_⟩
  · simp [equationSweep, sweepUpdate]
  · simp [equationSweep, hf]
  · simp [equationSweep, sweepUpdate]

/-- C5: once the residual returned by a sweep (the max-norm of its update)
is below the tolerance, one additional sweep of the same assembled system
changes no cell value of the solution field by more than the tolerance. -/
theorem converged_sweep_idempotent (n : ℕ) (relax tol : ℚ) (old sol : ℕ → ℚ)
    (h0 : 0 ≤ relax) (h1 : relax ≤ 1)
    (hres : maxAbsList n (fun i => sweepUpdate relax old sol i - old i) < tol) :
    ∀ i < n,
      |sweepUpdate relax (sweepUpdate relax old sol) sol i - sweepUpdate relax old sol i| ≤ tol := by
  intro i hi
  have hbound := abs_le_maxAbsList n (fun i => sweepUpdate relax old sol i - old i) i hi
  have hkey : sweepUpdate relax (sweepUpdate relax old sol) sol i - sweepUpdate relax old sol i
      = (1 - relax) * (sweepUpdate relax old sol i - old i) := by
    simp only [sweepUpdate]
    ring
  rw [hkey, abs_mul]
  have h1r : |1 - relax| ≤ 1 := by
    rw [abs_of_nonneg (by linarith)]
    linarith
  calc |1 - relax| * |sweepUpdate relax old sol i - old i|
      ≤ 1 * |sweepUpdate relax old sol i - old i| :=
        mul_le_mul_of_nonneg_right h1r (abs_nonneg _)
    _ = |sweepUpdate relax old sol i - old i| := one_mul _
    _ ≤ maxAbsList n (fun i => sweepUpdate relax old sol i - old i) := hbound
    _ ≤ tol := le_of_lt hres

/-- Witness for C5: one cell, `relax = 1/2`, `old = sol = 0`: the residual
`0` is below `1e-7` and the next sweep moves the cell by at most `1e-7`. -/
theorem converged_sweep_idempotent_witness :
    |sweepUpdate (1 / 2) (sweepUpdate (1 / 2) (fun _ => (0 : ℚ)) (fun _ => (0 : ℚ)))
        (fun _ => (0 : ℚ)) 0 - sweepUpdate (1 / 2) (fun _ => (0 : ℚ)) (fun _ => (0 : ℚ)) 0|
      ≤ 1 / 10 ^ 7 := by
  have hres : maxAbsList 1
      (fun i => sweepUpdate (1 / 2) (fun _ => (0 : ℚ)) (fun _ => (0 : ℚ)) i - (fun _ => (0 : ℚ)) i)
      < 1 / 10 ^ 7 := by
    norm_num [maxAbsList, sweepUpdate, List.range_succ, List.range_zero]
  exact converged_sweep_idempotent 1 (1 / 2) (1 / 10 ^ 7) (fun _ => (0 : ℚ))
    (fun _ => (0 : ℚ)) (by norm_num) (by norm_num) hres 0 (by norm_num)

/-- C6: the coupled solver loop always terminates with one of exactly two
outcomes: converged, with every equation's residual below its configured
tolerance and at most `maxSweeps` iterations used, or non-convergence
reported after exactly `maxSweeps` iterations; moreover each loop iteration
calls `sweep` once on each equation in the fixed declared order. -/
theorem coupled_loop_termination {σ : Type} (eqs : List (σ → σ × ℚ)) (tols : List ℚ)
    (maxSweeps : ℕ) (s : σ) :
    ((∃ s2 rs k, iterLoop eqs tols maxSweeps 0 s = .converged s2 rs k ∧
        allBelowTol rs tols = true ∧ k ≤ maxSweeps) ∨
      (∃ s2 rs, iterLoop eqs tols maxSweeps 0 s = .nonConverged s2 rs maxSweeps)) ∧
    (∀ (e : σ → σ × ℚ) (es : List (σ → σ × ℚ)) (st : σ),
      sweepAllEqns (e :: es) st
        = ((sweepAllEqns es (e st).1).1, (e st).2 :: (sweepAllEqns es (e st).1).2)) := by
  constructor
  · have h := iterLoop_exit eqs tols maxSweeps 0 s
    simpa using h
  · intro e es st
    rfl

/-- C7: `setValue` with a subset mutates exactly the listed cells and leaves
every other cell unchanged; without a subset it mutates all cells; and in
both cases every cached derived quantity (gradient, face interpolation) of
the field is invalidated. -/
theorem setValue_frame_and_invalidation (f : CellField) (v : ℚ) (cells : List ℕ) :
    (∀ i ∈ cells, (setValue f v (some cells)).values i = v) ∧
    (∀ i, i ∉ cells → (setValue f v (some cells)).values i = f.values i) ∧
    (∀ i, (setValue f v none).values i = v) ∧
    (setValue f v (some cells)).gradCache = none ∧
    (setValue f v (some cells)).faceCache = none ∧
    (setValue f v none).gradCache = none ∧
    (setValue f v none).faceCache = none := by
  refine ⟨fun i hi => ?_, fun i hi => ?_, fun i => rfl, rfl, rfl, rfl, rfl⟩
  · simp [setValue, hi]
  · simp [setValue, hi]

/-- C8: when the linear solver backend signals `Unsolvable`, the sweep
returns a non-convergence signal (`false` time-step outcome), the time is
not advanced, the field state is unchanged, and the backend was invoked
exactly once (no internal retry). -/
theorem unsolvable_no_retry_no_advance {σ : Type} (backend : σ → Option (ℕ → ℚ))
    (applySol : σ → (ℕ → ℚ) → σ) (resid : (ℕ → ℚ) → ℚ) (dt : ℚ) (st : SolverState σ)
    (h : backend st.fields = none) :
    (timestepWithBackend backend applySol resid dt st).2 = false ∧
    (timestepWithBackend backend applySol resid dt st).1.time = st.time ∧
    (timestepWithBackend backend applySol resid dt st).1.fields = st.fields ∧
    (timestepWithBackend backend applySol resid dt st).1.solverCalls = st.solverCalls + 1 := by
  refine ⟨?_, ?_, ?_, ?_⟩ <;> simp [timestepWithBackend, sweepWithBackend, h]

/-- Witness for C8: a backend that always fails, applied to a trivial state
at time `0`: the step reports failure, keeps time `0`, keeps the state and
counts one backend call. -/
theorem unsolvable_no_retry_no_advance_witness :
    (timestepWithBackend (fun _ : Unit => (none : Option (ℕ → ℚ))) (fun s _ => s)
        (fun _ => 0) 1 ⟨0, (), 0⟩).2 = false ∧
    (timestepWithBackend (fun _ : Unit => (none : Option (ℕ → ℚ))) (fun s _ => s)
        (fun _ => 0) 1 ⟨0, (), 0⟩).1.time = 0 ∧
    (timestepWithBackend (fun _ : Unit => (none : Option (ℕ → ℚ))) (fun s _ => s)
        (fun _ => 0) 1 ⟨0, (), 0⟩).1.fields = () ∧
    (timestepWithBackend (fun _ : Unit => (none : Option (ℕ → ℚ))) (fun s _ => s)
        (fun _ => 0) 1 ⟨0, (), 0⟩).1.solverCalls = 0 + 1 :=
  unsolvable_no_retry_no_advance (fun _ : Unit => (none : Option (ℕ → ℚ)))
    (fun s _ => s) (fun _ => 0) 1 ⟨0, (), 0⟩ rfl

/-- C10: if the lock file exists at every poll of the window,
`MayaviViewer.plot` writes neither VTK file nor the lock file, prints
"viewer: NOT READY" and returns normally; if the lock file is absent at
some poll, it writes the VTK files of the non-`None` sub-viewers and
creates the lock file exactly once, writing the given filename into it. -/
theorem mayavi_plot_lock_protocol {α : Type} (cfg : SubViewers) (filename : Option α)
    (polls : List Bool) :
    (polls.all id = true → mayaviPlot cfg filename polls = ⟨0, 0, [], true⟩) ∧
    (polls.all id = false →
      mayaviPlot cfg filename polls
        = ⟨if cfg.hasCellViewer then 1 else 0, if cfg.hasFaceViewer then 1 else 0,
            [filename], false⟩) := by
  induction polls with
  | nil =>
    refine ⟨fun _ => rfl, fun h => ?_⟩
    simp at h
  | cons b t ih =>
    constructor
    · intro h
      rw [List.all_cons] at h
      have hb : b = true := by
        cases b
        · simp at h
        · rfl
      have ht : t.all id = true := by
        rw [hb] at h
        simpa using h
      rw [mayaviPlot, hb, if_pos rfl]
      exact ih.1 ht
    · intro h
      cases hb : b
      · rw [mayaviPlot]
        simp
      · have ht : t.all id = false := by
          rw [List.all_cons, hb] at h
          simpa using h
        rw [mayaviPlot, if_pos rfl]
        exact ih.2 ht

set_option maxRecDepth 1000000 in
set_option maxHeartbeats 4000000 in
/-- C1: the concrete `input1D.py` scenario — 40 unit cells, species A at
0.3 (left half) / 0.6 (right half) and species B complementarily, both
with diffusivity 1 — after 40 time steps of duration 10000 has every cell
value of both species within relative and absolute tolerance `1e-7` of
0.45 (`allclose` returns true). -/
theorem elphf_input1D_allclose :
    allcloseQ (45 / 100) (1 / 10 ^ 7) (1 / 10 ^ 7) (iterDiffusion 10000 40 initA) = true ∧
    allcloseQ (45 / 100) (1 / 10 ^ 7) (1 / 10 ^ 7) (iterDiffusion 10000 40 initB) = true := by
  have h1 : (45 / 100 : ℚ) = mkRat 45 100 := by
    rw [Rat.mkRat_eq_divInt, Rat.divInt_eq_div]
    norm_num
  have h2 : (1 / 10 ^ 7 : ℚ) = mkRat 1 10000000 := by
    rw [Rat.mkRat_eq_divInt, Rat.divInt_eq_div]
    norm_num
  rw [h1, h2]
  exact ⟨by decide, by decide⟩

set_option maxRecDepth 100000 in
/-- C9: immediately after the four `setValue` calls of `input1D.py` and
before any time-stepping, the volume-weighted average of each species'
initial distribution is exactly 0.45 — the very value the final `allclose`
checks against — and the two species' values sum to exactly 0.9 on every
cell, in exact rational arithmetic. -/
theorem input1D_initial_average_exact :
    listWeightedAvg initA = 45 / 100 ∧
    listWeightedAvg initB = 45 / 100 ∧
    (∀ i < 40, qadd (fieldA.values i) (fieldB.values i) = 9 / 10) := by
  have h1 : (45 / 100 : ℚ) = mkRat 45 100 := by
    rw [Rat.mkRat_eq_divInt, Rat.divInt_eq_div]
    norm_num
  have h2 : (9 / 10 : ℚ) = mkRat 9 10 := by
    rw [Rat.mkRat_eq_divInt, Rat.divInt_eq_div]
    norm_num
  rw [h1, h2]
  exact ⟨by decide, by decide, by decide⟩

end FiPy
